import Mathlib

/-!
Verification of the `ifacemaker` interface-extraction engine (`maker/maker.go`).

The engine parses Go source files, collects the exported methods of one target
struct type, harvests import declarations of files that contributed methods,
and renders an interface declaration.  We embed the post-parse core shallowly:
a compilation unit arrives as a list of declarations plus a list of import
specs (the Go parser itself is out of scope), Go strings are Lean strings,
Go maps are association lists, and the ambient working directory read via
`os.Getwd()` is passed as an explicit argument.
-/

namespace Ifacemaker

/-! ## String helpers mirroring the Go standard library -/

/-- Go `strings.Split(s, sep)` for a single-character separator, on character
lists: splits around every occurrence of `c`. -/
def splitOnChar (c : Char) : List Char → List (List Char)
  | [] => [[]]
  | x :: xs =>
    match splitOnChar c xs with
    | [] => [[]]
    | y :: ys => if x = c then [] :: y :: ys else (x :: y) :: ys

/-- Go `strings.HasSuffix(s, post)`. -/
def hasSuffix (s post : String) : Bool :=
  post.toList.isSuffixOf s.toList

/-- Resolution of consecutive path components against `..` entries, the core
of `path/filepath.Clean` on a Unix system.  The first list is the (reversed)
already-cleaned output. -/
def cleanComps (rooted : Bool) : List (List Char) → List (List Char) → List (List Char)
  | acc, [] => acc.reverse
  | acc, c :: cs =>
    if c = ['.', '.'] then
      match acc with
      | [] => cleanComps rooted (if rooted then [] else [c]) cs
      | a :: rest =>
        if a = ['.', '.'] then cleanComps rooted (c :: a :: rest) cs
        else cleanComps rooted rest cs
    else cleanComps rooted (c :: acc) cs

/-- Go `path/filepath.Clean` on a Unix system, component-wise: drop empty and
`.` components, resolve `..` against preceding components (absorbed at the
root when the path is rooted), return `.` for an empty relative result. -/
def cleanPath (p : String) : String :=
  if p = "" then "."
  else
    let l := p.toList
    let rooted := l.head? = some '/'
    let comps := (splitOnChar '/' l).filter (fun c => c ≠ [] ∧ c ≠ ['.'])
    let out := cleanComps rooted [] comps
    if rooted then String.mk ('/' :: List.intercalate ['/'] out)
    else if out = [] then "."
    else String.mk (List.intercalate ['/'] out)

/-- Go `path/filepath.Dir` on a Unix system: everything up to and including the
final separator, cleaned; `.` when the path holds no separator. -/
def filepathDir (p : String) : String :=
  cleanPath (String.mk ((p.toList.reverse.dropWhile (fun c => c ≠ '/')).reverse))

/-- Go `ast.IsExported` / `token.IsExported`: the first character is an upper
case letter (restricted here to the ASCII range of `unicode.IsUpper`). -/
def isExported (name : String) : Bool :=
  match name.toList with
  | [] => false
  | c :: _ => c.isUpper

/-! ## Syntax-tree fragments (the slice of `go/ast` the engine consumes) -/

/-- A Go type expression, as far as the engine inspects or prints one. -/
inductive GoType where
  /-- A bare identifier, `T`. -/
  | ident (name : String)
  /-- A pointer type, `*T`. -/
  | star (t : GoType)
  /-- A selector / qualified type, `pkg.T`. -/
  | sel (pkg name : String)
  /-- A slice type, `[]T`. -/
  | arr (t : GoType)
  deriving DecidableEq, Repr

/-- Verbatim printing of a type expression (`printer.Fprint` on the parsed
node round-trips the source text). -/
def printType : GoType → String
  | .ident n => n
  | .star t => "*" ++ printType t
  | .sel p n => p ++ "." ++ n
  | .arr t => "[]" ++ printType t

/-- One entry of an `ast.FieldList`: names sharing one type. -/
structure Field where
  names : List String
  type : GoType
  deriving DecidableEq, Repr

/-- An `ast.FuncDecl`: optional receiver field list, name, parameters,
optional results, and doc-comment lines (`[]` models a nil doc group). -/
structure FuncDecl where
  recv : Option (List Field)
  name : String
  params : List Field
  results : Option (List Field)
  docs : List String
  deriving DecidableEq, Repr

/-- A top-level declaration, as far as the engine's dynamic type switch
distinguishes them. -/
inductive Decl where
  | funcDecl (fd : FuncDecl)
  | other
  deriving DecidableEq, Repr

/-- An `ast.ImportSpec`: optional explicit alias and the (unquoted) path. -/
structure ImportSpec where
  name : Option String
  path : String
  deriving DecidableEq, Repr

/-- A parsed compilation unit: declarations and import specs. -/
structure GoFile where
  decls : List Decl
  imports : List ImportSpec
  deriving DecidableEq, Repr

/-- Go `ast.FieldList.NumFields`: total number of names, counting a nameless
field as one. -/
def numFields : Option (List Field) → Nat
  | none => 0
  | some l => l.foldl (fun n g => n + (if g.names.length = 0 then 1 else g.names.length)) 0

/-! ## The engine state (`maker.Maker`) -/

/-- Go `maker.importedPkg`. -/
structure ImportedPkg where
  Alias : String
  Path : String
  deriving DecidableEq, Repr

/-- Go `maker.method`: the rendered signature and its doc lines. -/
structure Method where
  Code : String
  Docs : List String
  deriving DecidableEq, Repr

/-- Go `maker.Maker`: the accumulator.  Go's maps `importsByPath` and
`importsByAlias` are association lists (later insertions shadow earlier
ones, matching map overwrite); `methodNames` is the key set of Go's
`map[string]struct{}`. -/
structure Maker where
  StructName : String
  CopyDocs : Bool
  importsByPath : List (String × ImportedPkg)
  importsByAlias : List (String × ImportedPkg)
  imports : List ImportedPkg
  methods : List Method
  methodNames : List String
  funcDecks : List FuncDecl
  Output : String
  PkgNameUsedInSourceStruct : String
  deriving DecidableEq, Repr

/-- The `Maker` literal built by the CLI driver (`main.go`): configuration
fields set, every collection empty. -/
def Maker.init (structName : String) (copyDocs : Bool) (output pkgName : String) : Maker :=
  { StructName := structName
    CopyDocs := copyDocs
    importsByPath := []
    importsByAlias := []
    imports := []
    methods := []
    methodNames := []
    funcDecks := []
    Output := output
    PkgNameUsedInSourceStruct := pkgName }

/-- Go `maker.errorAlias`: replaces an empty alias with a placeholder in
error messages. -/
def errorAlias (al : String) : String :=
  if al = "" then "<none>" else al

/-- Go `Maker.getReceiverTypeName`, faithfully returning Go's
`("", nil)` sentinel on failure: requires a function declaration whose
receiver list has exactly one binding, unwraps one level of pointer
indirection, and requires the result to be a bare identifier.  (When the
configured struct name is empty Go would dereference the nil declaration
and crash; theorems below therefore quantify over non-empty struct names
where that matters.) -/
def getReceiverTypeName : Decl → String × Option FuncDecl
  | .other => ("", none)
  | .funcDecl fd =>
    if numFields fd.recv ≠ 1 then ("", none)
    else
      match fd.recv with
      | some (f :: _) =>
        (match (match f.type with | .star x => x | t => t) with
         | .ident n => (n, some fd)
         | _ => ("", none))
      | _ => ("", none)

/-- Go `Maker.cleanParams`: split the printed type on `.`; exactly two parts
whose first equals the source-package alias collapse to the bare second
part, anything else is untouched. -/
def cleanParams (m : Maker) (param : String) : String :=
  match splitOnChar '.' param.toList with
  | [a, b] =>
    if String.mk a = m.PkgNameUsedInSourceStruct then String.mk b else param
  | _ => param

/-- The inner loop of `Maker.printParameters` for one field: each name
followed by `,`, the last by a space, then the cleaned printed type. -/
def printField (m : Maker) (f : Field) : String :=
  let n := f.names.length
  String.join (f.names.enum.map (fun p => p.2 ++ (if p.1 < n - 1 then "," else " ")))
    ++ cleanParams m (printType f.type)

/-- Go `Maker.printParameters`: a nil field list prints empty; otherwise the
fields print in order, separated by commas.  (`printer.Fprint` never fails
on parsed nodes, so the Go error path is vacuous here.) -/
def printParameters (m : Maker) : Option (List Field) → String
  | none => ""
  | some l => String.intercalate "," (l.map (printField m))

/-- One iteration of `ParseSource`'s method-rendering loop (lines 151-179):
skip a name already collected, otherwise render the signature, capture docs
when `CopyDocs` is set, record the name, and append the method. -/
def addMethod (m : Maker) (fd : FuncDecl) : Maker :=
  if m.methodNames.contains fd.name then m
  else
    let params := printParameters m fd.params
    let ret := printParameters m fd.results
    let code := fd.name ++ "(" ++ params ++ ") (" ++ ret ++ ")"
    let docs := if m.CopyDocs then fd.docs else []
    { m with
      methodNames := m.methodNames ++ [fd.name]
      methods := m.methods ++ [{ Code := code, Docs := docs }] }

/-- One iteration of `ParseSource`'s import loop (lines 99-149): skip dot
sightings; elide an import whose path is a suffix of the target path,
capturing a non-empty alias as the source-package alias; otherwise fail on
an alias mismatch for a registered path, fail on a fresh path whose
non-empty alias is taken, and register a fresh path under both indices and
at the end of the ordered list. -/
def processImport (targetPath : String) (m : Maker) (imp : ImportSpec) :
    Except String Maker :=
  let al := match imp.name with | some n => n | none => ""
  if al = "." then .ok m
  else
    let path := imp.path
    if hasSuffix targetPath path then
      if al ≠ "" then .ok { m with PkgNameUsedInSourceStruct := al }
      else .ok m
    else
      match m.importsByPath.lookup path with
      | some existing =>
        if existing.Alias ≠ al then
          .error ("Package \"" ++ path ++ "\" imported multiple times with different aliases: "
            ++ errorAlias existing.Alias ++ ", " ++ errorAlias al)
        else .ok m
      | none =>
        if al ≠ "" ∧ (m.importsByAlias.lookup al).isSome then
          .error ("Import alias " ++ al ++ " already in use")
        else
          let pkg : ImportedPkg := { Alias := al, Path := path }
          .ok { m with
            importsByPath := (path, pkg) :: m.importsByPath
            importsByAlias := (al, pkg) :: m.importsByAlias
            imports := m.imports ++ [pkg] }

/-- One iteration of `ParseSource`'s declaration loop (lines 78-91): on a
receiver match, an unexported name is skipped; otherwise the has-methods
flag is raised and the declaration joins `funcDecks` unless its name is
already collected. -/
def collectDecl (p : Bool × Maker) (d : Decl) : Bool × Maker :=
  match getReceiverTypeName d, p with
  | (a, some fd), (hasMethods, m) =>
    if a = m.StructName then
      if ¬ isExported fd.name then (hasMethods, m)
      else if m.methodNames.contains fd.name then (true, m)
      else (true, { m with funcDecks := m.funcDecks ++ [fd] })
    else (hasMethods, m)
  | (_, none), q => q

/-- The target path `filepath.Dir(currentPath + "/" + m.Output)` computed at
the top of `ParseSource`; `cwd` is the result of `os.Getwd()`. -/
def targetPathOf (cwd output : String) : String :=
  filepathDir (cwd ++ "/" ++ output)

/-- Go `Maker.ParseSource` for an already-parsed compilation unit: run the
declaration loop; stop if no relevant method appeared; otherwise run the
harvest loop (which can fail) and then render the pending declarations. -/
def ParseSource (cwd : String) (m : Maker) (f : GoFile) : Except String Maker :=
  let targetPath := targetPathOf cwd m.Output
  match f.decls.foldl collectDecl (false, m) with
  | (hasMethods, m1) =>
    if !hasMethods then .ok m1
    else
      match f.imports.foldlM (processImport targetPath) m1 with
      | .error e => .error e
      | .ok m2 => .ok (m2.funcDecks.foldl addMethod m2)

/-- Driving `ParseSource` over a list of files in order, stopping at the
first error, as the CLI driver does. -/
def runFiles (cwd : String) (m : Maker) (fs : List GoFile) : Except String Maker :=
  fs.foldlM (fun acc f => ParseSource cwd acc f) m

/-! ## Rendering (`makeInterface` / `MakeInterface`) -/

/-- Go `method.Lines`: doc lines, then the signature. -/
def Method.lines (mtd : Method) : List String :=
  mtd.Docs ++ [mtd.Code]

/-- Go `importedPkg.Lines`: one line, `fmt.Sprintf("%v %q", alias, path)`. -/
def ImportedPkg.lines (i : ImportedPkg) : List String :=
  [i.Alias ++ " \"" ++ i.Path ++ "\""]

/-- Go `Maker.makeInterface`: the unformatted output text, assembled exactly in
source order (header comment, blank line, package clause, import block in
registration order, interface header, methods in discovery order, close). -/
def makeInterface (m : Maker) (pkgName ifaceName : String) : String :=
  let output := ["// Code generated by ifacemaker. DO NOT EDIT.", "",
    "package " ++ pkgName, "import ("]
  let output := m.imports.foldl (fun acc pkgImport => acc ++ pkgImport.lines) output
  let output := output ++ [")", "type " ++ ifaceName ++ " interface \x7b"]
  let output := m.methods.foldl (fun acc mtd => acc ++ mtd.lines) output
  let output := output ++ ["\x7d"]
  String.intercalate "\n" output

/-- Go `Maker.MakeInterface` up to the external formatting pass (`goimports`,
out of scope per the specification): the unformatted text, paired with the
receiver as it stands after the call — the Go method body contains no
assignment to any field of the receiver. -/
def MakeInterface (m : Maker) (pkgName ifaceName : String) : String × Maker :=
  (makeInterface m pkgName ifaceName, m)

/-! ## Characterization definitions

These restate parts of the loops above as direct functions of the input so
that theorems can speak about them; each is compared with the translated
code by the lemmas that follow. -/

/-- The explicit alias of an import spec, empty when none is written
(`alias := ""; if imp.Name != nil { alias = imp.Name.String() }`). -/
def aliasOf (imp : ImportSpec) : String :=
  match imp.name with | some n => n | none => ""

/-- A declaration whose receiver resolves to the target type name
(specification §4.2 steps 1-2 plus the name-equality half of step 3). -/
def declMatches (structName : String) (d : Decl) : Option FuncDecl :=
  match getReceiverTypeName d with
  | (a, some fd) => if a = structName then some fd else none
  | (_, none) => none

/-- A declaration that raises the per-file has-methods flag: receiver
matches and the name is exported (the dedup state plays no part). -/
def qualifiesB (structName : String) (d : Decl) : Bool :=
  match declMatches structName d with
  | some fd => isExported fd.name
  | none => false

/-- Whether a file triggers import harvesting. -/
def fileQualifies (structName : String) (ds : List Decl) : Bool :=
  ds.any (qualifiesB structName)

/-- The declarations one file appends to `funcDecks`: receiver matches,
name exported, name not yet collected. -/
def newDecks (structName : String) (names : List String) (ds : List Decl) : List FuncDecl :=
  ds.filterMap (fun d =>
    match declMatches structName d with
    | some fd => if isExported fd.name && !(names.contains fd.name) then some fd else none
    | none => none)

/-- Receiver matches and name is exported, with no dedup clause: the
collection filter of specification §4.2 / §8.1. -/
def collectedOf (structName : String) (d : Decl) : Option FuncDecl :=
  match declMatches structName d with
  | some fd => if isExported fd.name then some fd else none
  | none => none

/-- The import-harvest-and-render tail of `ParseSource` (lines 99-181),
reached exactly when the file yielded methods. -/
def harvestPhase (cwd : String) (m : Maker) (f : GoFile) : Except String Maker :=
  match f.imports.foldlM (processImport (targetPathOf cwd m.Output)) m with
  | .error e => .error e
  | .ok m2 => .ok (m2.funcDecks.foldl addMethod m2)

/-- The `Method` record created for one pending declaration by the
rendering loop (lines 158-178): the formatted signature and, when
doc-copying is on, the declaration doc lines. -/
def renderMethod (m : Maker) (fd : FuncDecl) : Method :=
  { Code := fd.name ++ "(" ++ printParameters m fd.params ++ ") (" ++ printParameters m fd.results ++ ")"
    Docs := if m.CopyDocs then fd.docs else [] }

/-- The method name recovered from a rendered `Method.Code` (everything
before the first opening parenthesis). -/
def methodNameOf (mtd : Method) : String :=
  String.mk (mtd.Code.toList.takeWhile (fun c => c ≠ '('))

/-- A string holding no opening parenthesis, as every Go identifier does. -/
def parenFree (s : String) : Prop := '(' ∉ s.toList

instance (s : String) : Decidable (parenFree s) := by
  unfold parenFree; infer_instance

/-- Every function declaration in a unit carries a paren-free name, as
any identifier produced by the Go parser does. -/
def declParenFree : Decl → Prop
  | .funcDecl fd => parenFree fd.name
  | .other => True

instance (d : Decl) : Decidable (declParenFree d) := by
  cases d <;> (unfold declParenFree; infer_instance)

/-! ## Concrete fixtures used by witnesses and counterexamples -/

/-- Go `func (t *T) Foo(id int) (string, error)` with a doc line. -/
def fooDecl : FuncDecl :=
  { recv := some [{ names := ["t"], type := .star (.ident "T") }]
    name := "Foo"
    params := [{ names := ["id"], type := .ident "int" }]
    results := some [{ names := [], type := .ident "string" },
                     { names := [], type := .ident "error" }]
    docs := ["// Foo does foo."] }

/-- Go `func (t T) Foo()`: a value-receiver method of the same name. -/
def fooDecl2 : FuncDecl :=
  { recv := some [{ names := ["t"], type := .ident "T" }]
    name := "Foo", params := [], results := none, docs := [] }

/-- Go `func F()`: a plain function with no receiver. -/
def plainFunc : FuncDecl :=
  { recv := none, name := "F", params := [], results := none, docs := [] }

/-- Go `func (t T) bar()`: an unexported method. -/
def barLower : FuncDecl :=
  { recv := some [{ names := ["t"], type := .ident "T" }]
    name := "bar", params := [], results := none, docs := [] }

/-- A file with one qualifying method and the import `x "a/b"`. -/
def fileA : GoFile :=
  { decls := [.funcDecl fooDecl], imports := [{ name := some "x", path := "a/b" }] }

/-- A file re-declaring `Foo` and importing `y "a/b"`. -/
def fileB : GoFile :=
  { decls := [.funcDecl fooDecl2], imports := [{ name := some "y", path := "a/b" }] }

/-- A file with one qualifying method and the import `q "x/y"`. -/
def fileSelf : GoFile :=
  { decls := [.funcDecl fooDecl], imports := [{ name := some "q", path := "x/y" }] }

/-- A file with an exported and an unexported method and no imports. -/
def fileMixed : GoFile :=
  { decls := [.funcDecl fooDecl, .funcDecl barLower, .other], imports := [] }

/-- The accumulator after processing `fileA` twice from a fresh engine. -/
def c5state : Maker :=
  { StructName := "T", CopyDocs := true,
    importsByPath := [("a/b", ⟨"x", "a/b"⟩)],
    importsByAlias := [("x", ⟨"x", "a/b"⟩)],
    imports := [⟨"x", "a/b"⟩],
    methods := [{ Code := "Foo(id int) (string,error)", Docs := ["// Foo does foo."] }],
    methodNames := ["Foo"], funcDecks := [fooDecl],
    Output := "", PkgNameUsedInSourceStruct := "p" }

/-- The accumulator after processing `fileMixed` from a fresh engine. -/
def c6state : Maker :=
  { StructName := "T", CopyDocs := true,
    importsByPath := [], importsByAlias := [], imports := [],
    methods := [{ Code := "Foo(id int) (string,error)", Docs := ["// Foo does foo."] }],
    methodNames := ["Foo"], funcDecks := [fooDecl],
    Output := "", PkgNameUsedInSourceStruct := "p" }

/-! ## Lemmas about `splitOnChar` -/

theorem splitOnChar_cons (c x : Char) (xs : List Char) :
    splitOnChar c (x :: xs) =
      match splitOnChar c xs with
      | [] => [[]]
      | y :: ys => if x = c then [] :: y :: ys else (x :: y) :: ys := rfl

theorem splitOnChar_ne_nil (c : Char) (l : List Char) : splitOnChar c l ≠ [] := by
  cases l with
  | nil => simp [splitOnChar]
  | cons x xs =>
    rw [splitOnChar_cons]
    cases h : splitOnChar c xs with
    | nil => simp
    | cons y ys => by_cases hx : x = c <;> simp [hx]

theorem splitOnChar_of_not_mem {c : Char} {l : List Char} (h : c ∉ l) :
    splitOnChar c l = [l] := by
  induction l with
  | nil => rfl
  | cons x xs ih =>
    have hx : x ≠ c := fun he => h (he ▸ List.mem_cons_self x xs)
    have hxs : c ∉ xs := fun hm => h (List.mem_cons_of_mem x hm)
    rw [splitOnChar_cons, ih hxs]
    simp [hx]

theorem splitOnChar_sep {c : Char} {a r : List Char} (h : c ∉ a) :
    splitOnChar c (a ++ c :: r) = a :: splitOnChar c r := by
  induction a with
  | nil =>
    rw [List.nil_append, splitOnChar_cons]
    cases hr : splitOnChar c r with
    | nil => exact absurd hr (splitOnChar_ne_nil c r)
    | cons y ys => simp
  | cons x xs ih =>
    have hx : x ≠ c := fun he => h (he ▸ List.mem_cons_self x xs)
    have hxs : c ∉ xs := fun hm => h (List.mem_cons_of_mem x hm)
    rw [List.cons_append, splitOnChar_cons, ih hxs]
    simp [hx]

theorem splitOnChar_two {a b : List Char} (ha : '.' ∉ a) (hb : '.' ∉ b) :
    splitOnChar '.' (a ++ '.' :: b) = [a, b] := by
  rw [splitOnChar_sep ha, splitOnChar_of_not_mem hb]

/-! ## C8: qualifier stripping -/

theorem toList_cat (x y : String) : (x ++ y).toList = x.toList ++ y.toList := rfl

theorem toList_dot_cat (x y : String) : (x ++ "." ++ y).toList = x.toList ++ '.' :: y.toList := by
  have : (x ++ "." ++ y).toList = x.toList ++ ".".toList ++ y.toList := rfl
  simpa using this

/-- Claim C8 — `cleanParams` rewrites a printed type of the exact shape
`<alias>.<identifier>` (alias equal to the resolved source-package alias)
to the bare identifier, and leaves every other printed type untouched:
a different qualifier, a dot-free string, a string with two or more dots
(a qualified name inside a function or map type), and a qualified name
wrapped in a pointer or slice prefix all come back unchanged. -/
theorem c8_qualifier_stripping (m : Maker) :
    (∀ id : String, '.' ∉ m.PkgNameUsedInSourceStruct.toList → '.' ∉ id.toList →
      cleanParams m (m.PkgNameUsedInSourceStruct ++ "." ++ id) = id) ∧
    (∀ q id : String, '.' ∉ q.toList → '.' ∉ id.toList → q ≠ m.PkgNameUsedInSourceStruct →
      cleanParams m (q ++ "." ++ id) = q ++ "." ++ id) ∧
    (∀ s : String, '.' ∉ s.toList → cleanParams m s = s) ∧
    (∀ a b c : String, '.' ∉ a.toList → '.' ∉ b.toList → '.' ∉ c.toList →
      cleanParams m (a ++ "." ++ b ++ "." ++ c) = a ++ "." ++ b ++ "." ++ c) ∧
    (∀ w id : String, w ≠ "" → '.' ∉ w.toList → '.' ∉ m.PkgNameUsedInSourceStruct.toList →
      '.' ∉ id.toList →
      cleanParams m (w ++ m.PkgNameUsedInSourceStruct ++ "." ++ id)
        = w ++ m.PkgNameUsedInSourceStruct ++ "." ++ id) := by
  refine ⟨?_, ?_, ?_, ?_, ?_⟩
  · intro id hal hid
    unfold cleanParams
    rw [toList_dot_cat, splitOnChar_two hal hid]
    simp
  · intro q id hq hid hne
    unfold cleanParams
    rw [toList_dot_cat, splitOnChar_two hq hid]
    simp [hne]
  · intro s hs
    unfold cleanParams
    rw [splitOnChar_of_not_mem hs]
  · intro a b c ha hb hc
    unfold cleanParams
    have h1 : (a ++ "." ++ b ++ "." ++ c).toList
        = a.toList ++ '.' :: (b.toList ++ '.' :: c.toList) := by
      have : (a ++ "." ++ b ++ "." ++ c).toList
          = a.toList ++ ".".toList ++ b.toList ++ ".".toList ++ c.toList := rfl
      simpa using this
    rw [h1, splitOnChar_sep ha, splitOnChar_sep hb, splitOnChar_of_not_mem hc]
  · intro w id hw hwd hal hid
    unfold cleanParams
    have hwa : '.' ∉ (w ++ m.PkgNameUsedInSourceStruct).toList := by
      intro hm
      rcases List.mem_append.mp ((toList_cat w _) ▸ hm) with h | h
      · exact hwd h
      · exact hal h
    have h1 : (w ++ m.PkgNameUsedInSourceStruct ++ "." ++ id).toList
        = (w ++ m.PkgNameUsedInSourceStruct).toList ++ '.' :: id.toList :=
      toList_dot_cat _ _
    rw [h1, splitOnChar_two hwa hid]
    have hne : (w ++ m.PkgNameUsedInSourceStruct) ≠ m.PkgNameUsedInSourceStruct := by
      intro he
      apply hw
      have hl := congrArg String.toList he
      rw [toList_cat] at hl
      have hnil : w.toList = [] := by
        have := congrArg List.length hl
        simp at this
        exact List.eq_nil_of_length_eq_zero this
      exact congrArg String.mk hnil
    have hmk : String.mk ((w ++ m.PkgNameUsedInSourceStruct).toList)
        = w ++ m.PkgNameUsedInSourceStruct := rfl
    simp only [hmk, hne, if_false, ite_eq_right_iff]

/-- Witness for C8 on a concrete alias and concrete printed types. -/
theorem c8_witness :
    cleanParams (Maker.init "T" true "" "pkg") "pkg.Widget" = "Widget" ∧
    cleanParams (Maker.init "T" true "" "pkg") "other.Widget" = "other.Widget" ∧
    cleanParams (Maker.init "T" true "" "pkg") "int" = "int" ∧
    cleanParams (Maker.init "T" true "" "pkg") "*pkg.Widget" = "*pkg.Widget" := by
  have h := c8_qualifier_stripping (Maker.init "T" true "" "pkg")
  refine ⟨?_, ?_, ?_, ?_⟩
  · exact h.1 "Widget" (by decide) (by decide)
  · exact h.2.1 "other" "Widget" (by decide) (by decide) (by decide)
  · exact h.2.2.1 "int" (by decide)
  · exact h.2.2.2.2 "*" "Widget" (by decide) (by decide) (by decide) (by decide)

/-! ## C7: the renderer -/

theorem foldl_append_lines {α β : Type} (f : α → List β) (l : List α) (acc : List β) :
    l.foldl (fun a x => a ++ f x) acc = acc ++ (l.map f).flatten := by
  induction l generalizing acc with
  | nil => simp
  | cons x xs ih => simp [ih, List.append_assoc]

/-- Claim C7 — the rendered (pre-format) text is, in exact order: the
generated-code marker, a blank line, the package clause, one import line
per registered import in registration order (`alias`, one space, the
quoted path), the interface opening with the configured name, every
method in discovery order (doc lines verbatim, then the signature), and
the closing brace; imports and methods appear by `List.map`, never
re-ordered or sorted. -/
theorem c7_renderer_layout (m : Maker) (pkgName ifaceName : String) :
    makeInterface m pkgName ifaceName = String.intercalate "\n"
      (["// Code generated by ifacemaker. DO NOT EDIT.", "",
        "package " ++ pkgName, "import ("]
       ++ m.imports.map (fun i => i.Alias ++ " \"" ++ i.Path ++ "\"")
       ++ [")", "type " ++ ifaceName ++ " interface \x7b"]
       ++ (m.methods.map (fun mtd => mtd.Docs ++ [mtd.Code])).flatten
       ++ ["\x7d"]) := by
  unfold makeInterface
  simp only [foldl_append_lines]
  have himp : (m.imports.map ImportedPkg.lines).flatten
      = m.imports.map (fun i => i.Alias ++ " \"" ++ i.Path ++ "\"") := by
    induction m.imports with
    | nil => rfl
    | cons i is ih => simp [ImportedPkg.lines, ih]
  have hmet : (m.methods.map Method.lines) = m.methods.map (fun mtd => mtd.Docs ++ [mtd.Code]) := rfl
  rw [himp, hmet]

/-! ## The declaration loop, characterized -/

theorem collectDecl_eq (p : Bool × Maker) (d : Decl) :
    collectDecl p d =
      match getReceiverTypeName d with
      | (a, some fd) =>
        if a = p.2.StructName then
          if ¬ isExported fd.name then p
          else if p.2.methodNames.contains fd.name then (true, p.2)
          else (true, { p.2 with funcDecks := p.2.funcDecks ++ [fd] })
        else p
      | (_, none) => p := by
  rcases p with ⟨hm, m⟩
  rcases h : getReceiverTypeName d with ⟨a, fdOpt⟩
  cases fdOpt <;> simp [collectDecl, h]

theorem newDecks_nil (structName : String) (names : List String) :
    newDecks structName names [] = [] := rfl

theorem newDecks_cons (structName : String) (names : List String) (d : Decl) (ds : List Decl) :
    newDecks structName names (d :: ds) =
      (match declMatches structName d with
       | some fd => if isExported fd.name && !(names.contains fd.name) then some fd else none
       | none => none).toList ++ newDecks structName names ds := by
  unfold newDecks
  rw [List.filterMap_cons]
  cases hdm : declMatches structName d with
  | none => simp [hdm]
  | some fd =>
    simp only [hdm]
    cases hc : (isExported fd.name && !(names.contains fd.name)) with
    | false => simp
    | true => simp

/-- The declaration loop of `ParseSource` (lines 77-91) computed in closed
form: the flag says some declaration had a matching receiver and an
exported name, and `funcDecks` gains exactly the not-yet-collected ones. -/
theorem declFold_spec (ds : List Decl) (hm : Bool) (m : Maker) :
    ds.foldl collectDecl (hm, m) =
      (hm || fileQualifies m.StructName ds,
       { m with funcDecks := m.funcDecks ++ newDecks m.StructName m.methodNames ds }) := by
  induction ds generalizing hm m with
  | nil => simp [fileQualifies, newDecks_nil]
  | cons d ds ih =>
    rw [List.foldl_cons, collectDecl_eq]
    have hq : fileQualifies m.StructName (d :: ds)
        = (qualifiesB m.StructName d || fileQualifies m.StructName ds) := by
      simp [fileQualifies]
    rcases h : getReceiverTypeName d with ⟨a, fdOpt⟩
    cases fdOpt with
    | none =>
      have hdm : declMatches m.StructName d = none := by
        unfold declMatches; rw [h]
      have hqd : qualifiesB m.StructName d = false := by
        unfold qualifiesB; rw [hdm]
      simp only []
      rw [ih, hq, hqd, newDecks_cons, hdm]
      simp
    | some fd =>
      by_cases ha : a = m.StructName
      · have hdm : declMatches m.StructName d = some fd := by
          unfold declMatches; rw [h]; simp [ha]
        have hqd : qualifiesB m.StructName d = isExported fd.name := by
          unfold qualifiesB; rw [hdm]
        cases he : isExported fd.name with
        | false =>
          simp only []
          rw [if_pos ha, if_pos (by simp [he]), ih, hq, hqd, he, newDecks_cons, hdm]
          simp [he]
        | true =>
          cases hc : m.methodNames.contains fd.name with
          | true =>
            have hmem : fd.name ∈ m.methodNames := List.elem_iff.mp hc
            simp only []
            rw [if_pos ha, if_neg (by simp [he]), if_pos hc, ih, hq, hqd, he,
              newDecks_cons, hdm]
            simp [he, hc, hmem]
          | false =>
            have hnmem : fd.name ∉ m.methodNames := by
              intro hmem
              have hx : m.methodNames.contains fd.name = true := List.elem_iff.mpr hmem
              rw [hc] at hx
              exact Bool.false_ne_true hx
            simp only []
            rw [if_pos ha, if_neg (by simp [he]), if_neg (by rw [hc]; simp), ih, hq, hqd, he,
              newDecks_cons, hdm]
            simp [he, hc, hnmem, List.append_assoc]
      · have hdm : declMatches m.StructName d = none := by
          unfold declMatches; rw [h]; simp [ha]
        have hqd : qualifiesB m.StructName d = false := by
          unfold qualifiesB; rw [hdm]
        simp only []
        rw [if_neg ha, ih, hq, hqd, newDecks_cons, hdm]
        simp

/-- Go `ParseSource` in terms of the closed-form phases: the harvest tail runs
exactly when a declaration with matching receiver and exported name exists,
over the state whose `funcDecks` took this file's new declarations. -/
theorem ParseSource_eq (cwd : String) (m : Maker) (f : GoFile) :
    ParseSource cwd m f =
      if fileQualifies m.StructName f.decls then
        harvestPhase cwd
          { m with funcDecks := m.funcDecks ++ newDecks m.StructName m.methodNames f.decls } f
      else
        .ok { m with funcDecks := m.funcDecks ++ newDecks m.StructName m.methodNames f.decls } := by
  unfold ParseSource harvestPhase
  rw [declFold_spec]
  cases hq : fileQualifies m.StructName f.decls <;> simp [hq]

theorem newDecks_of_not_qualifies {structName : String} {ds : List Decl}
    (h : fileQualifies structName ds = false) (names : List String) :
    newDecks structName names ds = [] := by
  induction ds with
  | nil => rfl
  | cons d ds ih =>
    have hsplit : qualifiesB structName d = false ∧ fileQualifies structName ds = false := by
      constructor
      · by_contra hcon
        have : qualifiesB structName d = true := by
          cases hb : qualifiesB structName d
          · exact absurd hb hcon
          · rfl
        rw [fileQualifies, List.any_cons, this] at h
        simp at h
      · rw [fileQualifies, List.any_cons] at h
        rw [fileQualifies]
        exact (Bool.or_eq_false_iff.mp h).2
    rw [newDecks_cons, ih hsplit.2]
    have hqd := hsplit.1
    unfold qualifiesB at hqd
    cases hdm : declMatches structName d with
    | none => simp [hdm]
    | some fd =>
      rw [hdm] at hqd
      simp at hqd
      simp [hdm, hqd]

/-! ## The import loop, characterized -/

theorem processImport_eq (tp : String) (m : Maker) (imp : ImportSpec) :
    processImport tp m imp =
      if aliasOf imp = "." then .ok m
      else if hasSuffix tp imp.path then
        if aliasOf imp ≠ "" then .ok { m with PkgNameUsedInSourceStruct := aliasOf imp }
        else .ok m
      else
        match m.importsByPath.lookup imp.path with
        | some existing =>
          if existing.Alias ≠ aliasOf imp then
            .error ("Package \"" ++ imp.path ++ "\" imported multiple times with different aliases: "
              ++ errorAlias existing.Alias ++ ", " ++ errorAlias (aliasOf imp))
          else .ok m
        | none =>
          if aliasOf imp ≠ "" ∧ (m.importsByAlias.lookup (aliasOf imp)).isSome then
            .error ("Import alias " ++ aliasOf imp ++ " already in use")
          else
            .ok { m with
              importsByPath := (imp.path, ⟨aliasOf imp, imp.path⟩) :: m.importsByPath
              importsByAlias := (aliasOf imp, ⟨aliasOf imp, imp.path⟩) :: m.importsByAlias
              imports := m.imports ++ [⟨aliasOf imp, imp.path⟩] } := rfl

/-- A successful import-loop step never touches the method side of the
state, nor the configuration. -/
theorem processImport_frame (tp : String) (m : Maker) (imp : ImportSpec) (m' : Maker)
    (h : processImport tp m imp = .ok m') :
    m'.methods = m.methods ∧ m'.methodNames = m.methodNames ∧ m'.funcDecks = m.funcDecks ∧
    m'.StructName = m.StructName ∧ m'.Output = m.Output ∧ m'.CopyDocs = m.CopyDocs := by
  rw [processImport_eq] at h
  split at h
  · injection h with h2; subst h2; exact ⟨rfl, rfl, rfl, rfl, rfl, rfl⟩
  · split at h
    · split at h
      · injection h with h2; subst h2; exact ⟨rfl, rfl, rfl, rfl, rfl, rfl⟩
      · injection h with h2; subst h2; exact ⟨rfl, rfl, rfl, rfl, rfl, rfl⟩
    · split at h
      · split at h
        · exact Except.noConfusion h
        · injection h with h2; subst h2; exact ⟨rfl, rfl, rfl, rfl, rfl, rfl⟩
      · split at h
        · exact Except.noConfusion h
        · injection h with h2; subst h2; exact ⟨rfl, rfl, rfl, rfl, rfl, rfl⟩

/-- The frame property lifted over a whole import loop. -/
theorem importFold_frame (tp : String) (imps : List ImportSpec) :
    ∀ (m m' : Maker), imps.foldlM (processImport tp) m = .ok m' →
      m'.methods = m.methods ∧ m'.methodNames = m.methodNames ∧ m'.funcDecks = m.funcDecks ∧
      m'.StructName = m.StructName ∧ m'.Output = m.Output ∧ m'.CopyDocs = m.CopyDocs := by
  induction imps with
  | nil =>
    intro m m' h
    injection h with h2
    subst h2
    exact ⟨rfl, rfl, rfl, rfl, rfl, rfl⟩
  | cons i is ih =>
    intro m m' h
    rw [List.foldlM_cons] at h
    cases hstep : processImport tp m i with
    | error e => rw [hstep] at h; exact Except.noConfusion h
    | ok mm =>
      rw [hstep] at h
      have hbind : is.foldlM (processImport tp) mm = .ok m' := h
      have h1 := processImport_frame tp m i mm hstep
      have h2 := ih mm m' hbind
      exact ⟨h2.1.trans h1.1, h2.2.1.trans h1.2.1, h2.2.2.1.trans h1.2.2.1,
        h2.2.2.2.1.trans h1.2.2.2.1, h2.2.2.2.2.1.trans h1.2.2.2.2.1,
        h2.2.2.2.2.2.trans h1.2.2.2.2.2⟩

/-! ## C3: the alias-conflict error -/

/-- Claim C3 — on a non-dot, non-self import whose path is already registered:
a different alias fails with the conflict message naming the path and both
aliases rendered through `errorAlias` (which prints the `<none>` placeholder
for an empty alias), and the same alias is a silent no-op. -/
theorem c3_alias_conflict (tp : String) (m : Maker) (imp : ImportSpec) (existing : ImportedPkg)
    (hdot : aliasOf imp ≠ ".")
    (hself : hasSuffix tp imp.path = false)
    (hreg : m.importsByPath.lookup imp.path = some existing) :
    (existing.Alias ≠ aliasOf imp →
      processImport tp m imp = .error
        ("Package \"" ++ imp.path ++ "\" imported multiple times with different aliases: "
          ++ errorAlias existing.Alias ++ ", " ++ errorAlias (aliasOf imp))) ∧
    (existing.Alias = aliasOf imp → processImport tp m imp = .ok m) ∧
    errorAlias "" = "<none>" := by
  rw [processImport_eq, if_neg hdot, hself]
  simp only [Bool.false_eq_true, if_false, hreg]
  refine ⟨?_, ?_, rfl⟩
  · intro hne
    simp [hne]
  · intro heq
    simp [heq]

/-- Witness for C3: a conflicting alias on a registered path produces the
exact message, and the same alias is a no-op. -/
theorem c3_witness :
    (processImport "/w" { Maker.init "T" true "" "p" with
        importsByPath := [("a/b", ⟨"x", "a/b"⟩)] } { name := some "y", path := "a/b" }
      = .error "Package \"a/b\" imported multiple times with different aliases: x, y") ∧
    (processImport "/w" { Maker.init "T" true "" "p" with
        importsByPath := [("a/b", ⟨"", "a/b"⟩)] } { name := some "y", path := "a/b" }
      = .error "Package \"a/b\" imported multiple times with different aliases: <none>, y") ∧
    (processImport "/w" { Maker.init "T" true "" "p" with
        importsByPath := [("a/b", ⟨"x", "a/b"⟩)] } { name := some "x", path := "a/b" }
      = .ok { Maker.init "T" true "" "p" with importsByPath := [("a/b", ⟨"x", "a/b"⟩)] }) := by
  refine ⟨?_, ?_, ?_⟩
  · have h := c3_alias_conflict "/w"
      { Maker.init "T" true "" "p" with importsByPath := [("a/b", ⟨"x", "a/b"⟩)] }
      { name := some "y", path := "a/b" } ⟨"x", "a/b"⟩
      (by decide) (by decide) (by decide)
    exact h.1 (by decide)
  · have h := c3_alias_conflict "/w"
      { Maker.init "T" true "" "p" with importsByPath := [("a/b", ⟨"", "a/b"⟩)] }
      { name := some "y", path := "a/b" } ⟨"", "a/b"⟩
      (by decide) (by decide) (by decide)
    exact h.1 (by decide)
  · have h := c3_alias_conflict "/w"
      { Maker.init "T" true "" "p" with importsByPath := [("a/b", ⟨"x", "a/b"⟩)] }
      { name := some "x", path := "a/b" } ⟨"x", "a/b"⟩
      (by decide) (by decide) (by decide)
    exact h.2.1 (by decide)

/-! ## C4: alias reuse and registration -/

/-- Claim C4 — on a non-dot, non-self import whose path is not yet
registered: a non-empty alias already bound in the alias index fails with
the alias-in-use message naming the alias; otherwise the package is
registered under the path index and, when the alias is non-empty, under
the alias index, and is appended to the end of the ordered import list
(first-registration order, never sorted), all other state unchanged. -/
theorem c4_alias_in_use (tp : String) (m : Maker) (imp : ImportSpec)
    (hdot : aliasOf imp ≠ ".")
    (hself : hasSuffix tp imp.path = false)
    (hnew : m.importsByPath.lookup imp.path = none) :
    ((aliasOf imp ≠ "" ∧ (m.importsByAlias.lookup (aliasOf imp)).isSome) →
      processImport tp m imp = .error ("Import alias " ++ aliasOf imp ++ " already in use")) ∧
    (¬ (aliasOf imp ≠ "" ∧ (m.importsByAlias.lookup (aliasOf imp)).isSome) →
      ∃ m' : Maker, processImport tp m imp = .ok m' ∧
        m'.imports = m.imports ++ [⟨aliasOf imp, imp.path⟩] ∧
        m'.importsByPath.lookup imp.path = some ⟨aliasOf imp, imp.path⟩ ∧
        (aliasOf imp ≠ "" →
          m'.importsByAlias.lookup (aliasOf imp) = some ⟨aliasOf imp, imp.path⟩) ∧
        m'.methods = m.methods ∧ m'.methodNames = m.methodNames ∧
        m'.PkgNameUsedInSourceStruct = m.PkgNameUsedInSourceStruct) := by
  rw [processImport_eq, if_neg hdot, hself]
  simp only [Bool.false_eq_true, if_false, hnew]
  constructor
  · intro hin
    simp [hin]
  · intro hout
    refine ⟨{ m with
        importsByPath := (imp.path, ⟨aliasOf imp, imp.path⟩) :: m.importsByPath
        importsByAlias := (aliasOf imp, ⟨aliasOf imp, imp.path⟩) :: m.importsByAlias
        imports := m.imports ++ [⟨aliasOf imp, imp.path⟩] }, ?_, rfl, ?_, ?_, rfl, rfl, rfl⟩
    · rw [if_neg hout]
    · simp [List.lookup]
    · intro _
      simp [List.lookup]

/-- Witness for C4: reusing alias `q` for a different path fails naming
`q`; a fresh registration lands in all three indices. -/
theorem c4_witness :
    (processImport "/w" { Maker.init "T" true "" "p" with
        importsByPath := [("x/y", ⟨"q", "x/y"⟩)], importsByAlias := [("q", ⟨"q", "x/y"⟩)],
        imports := [⟨"q", "x/y"⟩] } { name := some "q", path := "x/z" }
      = .error "Import alias q already in use") ∧
    (∃ m' : Maker,
      processImport "/w" (Maker.init "T" true "" "p") { name := some "q", path := "x/y" }
        = .ok m' ∧ m'.imports = [⟨"q", "x/y"⟩] ∧
        m'.importsByPath.lookup "x/y" = some ⟨"q", "x/y"⟩ ∧
        m'.importsByAlias.lookup "q" = some ⟨"q", "x/y"⟩) := by
  constructor
  · have h := c4_alias_in_use "/w"
      { Maker.init "T" true "" "p" with
        importsByPath := [("x/y", ⟨"q", "x/y"⟩)], importsByAlias := [("q", ⟨"q", "x/y"⟩)],
        imports := [⟨"q", "x/y"⟩] }
      { name := some "q", path := "x/z" } (by decide) (by decide) (by decide)
    exact h.1 (by decide)
  · have h := c4_alias_in_use "/w" (Maker.init "T" true "" "p")
      { name := some "q", path := "x/y" } (by decide) (by decide) (by decide)
    rcases h.2 (by decide) with ⟨m', hok, him, hbp, hba, _⟩
    exact ⟨m', hok, by simpa using him, by simpa using hbp, by simpa using hba (by decide)⟩

/-! ## C1: self-import detection and the output location -/

theorem splitOnChar_append_sep (c : Char) (l : List Char) :
    splitOnChar c (l ++ [c]) = splitOnChar c l ++ [[]] := by
  induction l with
  | nil =>
    rw [List.nil_append, splitOnChar_cons]
    simp [splitOnChar]
  | cons x xs ih =>
    rw [List.cons_append, splitOnChar_cons, ih, splitOnChar_cons]
    cases hS : splitOnChar c xs with
    | nil => exact absurd hS (splitOnChar_ne_nil c xs)
    | cons y ys => by_cases hx : x = c <;> simp [hx]

theorem toList_ne_nil_of_ne_empty {p : String} (h : p ≠ "") : p.toList ≠ [] := by
  intro hl
  apply h
  cases p with | mk d => simpa using congrArg String.mk hl

/-- Appending a trailing separator does not change the cleaned path. -/
theorem cleanPath_append_slash (cwd : String) (h : cwd ≠ "") :
    cleanPath (cwd ++ "/") = cleanPath cwd := by
  have hlist : (cwd ++ "/").toList = cwd.toList ++ ['/'] := rfl
  have hne : (cwd ++ "/") ≠ "" := by
    intro he
    have := congrArg String.toList he
    rw [hlist] at this
    simp at this
  have hnil := toList_ne_nil_of_ne_empty h
  have hhead : (cwd.toList ++ ['/']).head? = cwd.toList.head? := by
    cases hcl : cwd.toList with
    | nil => exact absurd hcl hnil
    | cons a as => simp
  unfold cleanPath
  rw [if_neg hne, if_neg h]
  simp only [hlist, splitOnChar_append_sep, List.filter_append, hhead]
  simp

/-- With an empty output location the self-import comparison target is the
(cleaned) working directory itself. -/
theorem targetPathOf_empty (cwd : String) (h : cwd ≠ "") :
    targetPathOf cwd "" = cleanPath cwd := by
  unfold targetPathOf filepathDir
  rw [String.append_empty]
  have h1 : (cwd ++ "/").toList = cwd.toList ++ ['/'] := rfl
  have h2 : ((cwd ++ "/").toList.reverse.dropWhile (fun c => c ≠ '/')).reverse
      = cwd.toList ++ ['/'] := by
    rw [h1]
    have h3 : (cwd.toList ++ ['/']).reverse = '/' :: cwd.toList.reverse := by simp
    rw [h3]
    have h4 : ('/' :: cwd.toList.reverse).dropWhile (fun c => c ≠ '/')
        = '/' :: cwd.toList.reverse := by simp [List.dropWhile]
    rw [h4, ← h3]
    simp
  rw [h2]
  have h5 : String.mk (cwd.toList ++ ['/']) = cwd ++ "/" := rfl
  rw [h5]
  exact cleanPath_append_slash cwd h

/-- Claim C1 counterexample — with an empty output location self-import
detection is NOT disabled: in working directory `/go/src/x/y`, the import
`q "x/y"` of a method-yielding file is elided from the import list and its
alias is captured as the source-package alias, contradicting the claim
that every non-dot import is then treated as foreign. -/
theorem c1_counterexample :
    (ParseSource "/go/src/x/y" (Maker.init "T" true "" "pkg") fileSelf).map Maker.imports
      = .ok [] ∧
    (ParseSource "/go/src/x/y" (Maker.init "T" true "" "pkg") fileSelf).map
        Maker.PkgNameUsedInSourceStruct
      = .ok "q" := by
  constructor <;> rfl

/-- Claim C1 (amended) — self-import detection always compares against
`dir(cwd + "/" + output)`; with an empty output this equals the cleaned
working directory, so detection stays active against it.  An import whose
path is a suffix of the comparison target is elided (never registered) and
a non-empty alias on it becomes the source-package alias; an import whose
path is not such a suffix is treated as foreign: the source-package alias
is untouched and on success the path is present in the path index. -/
theorem c1_self_import_detection :
    (∀ cwd : String, cwd ≠ "" → targetPathOf cwd "" = cleanPath cwd) ∧
    (∀ (tp : String) (m : Maker) (imp : ImportSpec),
      aliasOf imp ≠ "." → hasSuffix tp imp.path = true →
      processImport tp m imp =
        .ok (if aliasOf imp = "" then m
             else { m with PkgNameUsedInSourceStruct := aliasOf imp })) ∧
    (∀ (tp : String) (m m' : Maker) (imp : ImportSpec),
      aliasOf imp ≠ "." → hasSuffix tp imp.path = false →
      processImport tp m imp = .ok m' →
      m'.PkgNameUsedInSourceStruct = m.PkgNameUsedInSourceStruct ∧
      m'.importsByPath.lookup imp.path ≠ none) := by
  refine ⟨targetPathOf_empty, ?_, ?_⟩
  · intro tp m imp hdot hsuf
    rw [processImport_eq, if_neg hdot, hsuf]
    by_cases hal : aliasOf imp = ""
    · simp [hal]
    · simp [hal]
  · intro tp m m' imp hdot hsuf h
    rw [processImport_eq, if_neg hdot, hsuf] at h
    simp only [Bool.false_eq_true, if_false] at h
    split at h
    · rename_i existing heq
      split at h
      · exact Except.noConfusion h
      · injection h with h2
        subst h2
        refine ⟨rfl, ?_⟩
        rw [heq]
        exact Option.noConfusion
    · rename_i heq
      split at h
      · exact Except.noConfusion h
      · injection h with h2
        subst h2
        refine ⟨rfl, ?_⟩
        simp [List.lookup]

/-- Witness for C1 (amended) at concrete inputs: the empty-output target
equals the cleaned working directory, a suffix-matching import is elided
with its alias captured, and a foreign import leaves the source-package
alias alone while landing in the path index. -/
theorem c1_witness :
    targetPathOf "/go/src/x/y" "" = cleanPath "/go/src/x/y" ∧
    processImport "/go/src/x/y" (Maker.init "T" true "" "pkg")
        { name := some "q", path := "x/y" }
      = .ok { Maker.init "T" true "" "pkg" with PkgNameUsedInSourceStruct := "q" } ∧
    (∀ m' : Maker,
      processImport "/w" (Maker.init "T" true "" "pkg") { name := some "q", path := "x/y" }
        = .ok m' →
      m'.PkgNameUsedInSourceStruct = "pkg" ∧ m'.importsByPath.lookup "x/y" ≠ none) := by
  refine ⟨c1_self_import_detection.1 "/go/src/x/y" (by decide), ?_, ?_⟩
  · have h := c1_self_import_detection.2.1 "/go/src/x/y" (Maker.init "T" true "" "pkg")
      { name := some "q", path := "x/y" } (by decide) (by decide)
    simpa using h
  · intro m' h
    exact c1_self_import_detection.2.2 "/w" (Maker.init "T" true "" "pkg") m'
      { name := some "q", path := "x/y" } (by decide) (by decide) h

/-! ## C2: when import harvesting runs -/

/-- Claim C2 counterexample — a file whose only matching exported method
carries an already-collected name still triggers import harvesting: after
`fileA` collects `Foo` with import `x "a/b"`, processing `fileB` (which
re-declares `Foo`, already collected, and imports `y "a/b"`) raises the
alias-conflict error the claim says it cannot raise. -/
theorem c2_counterexample :
    runFiles "/w" (Maker.init "T" true "" "p") [fileA, fileB]
      = .error "Package \"a/b\" imported multiple times with different aliases: x, y" := by
  rfl

/-- Claim C2 (amended) — import harvesting runs if and only if the file holds
at least one declaration whose receiver matches the target type and whose
name is exported, with no regard to whether that name was already
collected: a file with no such declaration leaves the state untouched, and
a file with one proceeds to the harvest phase. -/
theorem c2_harvest_iff (cwd : String) (m : Maker) (f : GoFile)
    (hs : m.StructName ≠ "") :
    (fileQualifies m.StructName f.decls = false → ParseSource cwd m f = .ok m) ∧
    (fileQualifies m.StructName f.decls = true →
      ParseSource cwd m f = harvestPhase cwd
        { m with funcDecks := m.funcDecks ++ newDecks m.StructName m.methodNames f.decls } f) := by
  constructor
  · intro hq
    rw [ParseSource_eq, if_neg (by rw [hq]; simp), newDecks_of_not_qualifies hq]
    simp
  · intro hq
    rw [ParseSource_eq, if_pos (by rw [hq])]

/-- Witness for C2 (amended): a file with only an unexported matching
method harvests nothing and leaves the state unchanged; `fileA` (one
exported matching method) proceeds to the harvest phase. -/
theorem c2_witness :
    ParseSource "/w" (Maker.init "T" true "" "p")
        { decls := [.funcDecl barLower], imports := [{ name := some "z", path := "c/d" }] }
      = .ok (Maker.init "T" true "" "p") ∧
    ParseSource "/w" (Maker.init "T" true "" "p") fileA
      = harvestPhase "/w" { Maker.init "T" true "" "p" with funcDecks := [fooDecl] } fileA := by
  constructor
  · exact (c2_harvest_iff "/w" (Maker.init "T" true "" "p")
      { decls := [.funcDecl barLower], imports := [{ name := some "z", path := "c/d" }] }
      (by decide)).1 (by decide)
  · have h := (c2_harvest_iff "/w" (Maker.init "T" true "" "p") fileA (by decide)).2 (by decide)
    exact h.trans (by rfl)

/-! ## C5: first-wins deduplication and uniqueness -/

theorem methodNameOf_mk (nm s : String) (docs : List String) (h : parenFree nm) :
    methodNameOf { Code := nm ++ "(" ++ s, Docs := docs } = nm := by
  unfold methodNameOf
  have h1 : (nm ++ "(" ++ s).toList = nm.toList ++ '(' :: s.toList := by
    have h0 : (nm ++ "(" ++ s).toList = nm.toList ++ "(".toList ++ s.toList := rfl
    simpa using h0
  have hp : ∀ x ∈ nm.toList, (fun c => decide (c ≠ '(')) x = true := by
    intro x hx
    simp only [decide_eq_true_eq]
    intro hcon
    exact h (hcon ▸ hx)
  simp only [h1]
  rw [List.takeWhile_append_of_pos hp]
  simp

theorem addMethod_mem (m : Maker) (fd : FuncDecl)
    (h : m.methodNames.contains fd.name = true) : addMethod m fd = m := by
  unfold addMethod
  rw [if_pos h]

theorem addMethod_new (m : Maker) (fd : FuncDecl)
    (h : m.methodNames.contains fd.name = false) :
    addMethod m fd = { m with
      methodNames := m.methodNames ++ [fd.name],
      methods := m.methods ++ [renderMethod m fd] } := by
  unfold addMethod renderMethod
  rw [if_neg (by rw [h]; simp)]

theorem methodNameOf_rendered (m : Maker) (fd : FuncDecl) (h : parenFree fd.name) :
    methodNameOf (renderMethod m fd) = fd.name := by
  unfold renderMethod
  have hassoc : fd.name ++ "(" ++ printParameters m fd.params
      ++ ") (" ++ printParameters m fd.results ++ ")"
      = fd.name ++ "(" ++ (printParameters m fd.params
          ++ ") (" ++ printParameters m fd.results ++ ")") := by
    simp [String.append_assoc]
  rw [hassoc]
  exact methodNameOf_mk fd.name _ _ h

/-- Folding the rendering step over pending declarations with all-fresh,
pairwise-distinct names appends exactly one `Method` per declaration, in
order. -/
theorem addMethodFold_names (fds : List FuncDecl) :
    ∀ m : Maker, (∀ fd ∈ fds, parenFree fd.name) →
      (fds.map FuncDecl.name).Nodup →
      (∀ fd ∈ fds, fd.name ∉ m.methodNames) →
      (fds.foldl addMethod m).methods.map methodNameOf
          = m.methods.map methodNameOf ++ fds.map FuncDecl.name ∧
      (fds.foldl addMethod m).methodNames = m.methodNames ++ fds.map FuncDecl.name := by
  induction fds with
  | nil => intro m _ _ _; simp
  | cons fd fds ih =>
    intro m hpf hnd hfresh
    have hc : m.methodNames.contains fd.name = false := by
      cases hcc : m.methodNames.contains fd.name
      · rfl
      · exact absurd (List.elem_iff.mp hcc) (hfresh fd (List.mem_cons_self fd fds))
    rw [List.foldl_cons, addMethod_new m fd hc]
    have hpfh : parenFree fd.name := hpf fd (List.mem_cons_self fd fds)
    have hndt : (fds.map FuncDecl.name).Nodup := by
      have := hnd
      rw [List.map_cons, List.nodup_cons] at this
      exact this.2
    have hndh : fd.name ∉ fds.map FuncDecl.name := by
      have := hnd
      rw [List.map_cons, List.nodup_cons] at this
      exact this.1
    have hstep := ih { m with
        methodNames := m.methodNames ++ [fd.name],
        methods := m.methods ++ [renderMethod m fd] }
      (fun fd' hm => hpf fd' (List.mem_cons_of_mem fd hm))
      hndt
      (by
        intro fd' hm hmem
        rcases List.mem_append.mp hmem with hold | hone
        · exact hfresh fd' (List.mem_cons_of_mem fd hm) hold
        · have hne : fd'.name = fd.name := List.mem_singleton.mp hone
          exact hndh (hne ▸ List.mem_map_of_mem FuncDecl.name hm))
    refine ⟨?_, ?_⟩
    · rw [hstep.1]
      simp [methodNameOf_rendered m fd hpfh, List.append_assoc]
    · rw [hstep.2]
      simp [List.append_assoc]

/-- The rendering fold preserves the name-set correspondence and
uniqueness, whatever mix of fresh and already-collected names it meets. -/
theorem addMethodFold_inv (fds : List FuncDecl) :
    ∀ m : Maker, (∀ fd ∈ fds, parenFree fd.name) →
      m.methods.map methodNameOf = m.methodNames → m.methodNames.Nodup →
      ((fds.foldl addMethod m).methods.map methodNameOf = (fds.foldl addMethod m).methodNames ∧
       (fds.foldl addMethod m).methodNames.Nodup ∧
       (fds.foldl addMethod m).funcDecks = m.funcDecks) := by
  induction fds with
  | nil => intro m _ h1 h2; exact ⟨h1, h2, rfl⟩
  | cons fd fds ih =>
    intro m hpf h1 h2
    rw [List.foldl_cons]
    have hpfh : parenFree fd.name := hpf fd (List.mem_cons_self fd fds)
    have hpft : ∀ fd' ∈ fds, parenFree fd'.name :=
      fun fd' hm => hpf fd' (List.mem_cons_of_mem fd hm)
    cases hc : m.methodNames.contains fd.name with
    | true =>
      rw [addMethod_mem m fd hc]
      exact ih m hpft h1 h2
    | false =>
      rw [addMethod_new m fd hc]
      have hnotmem : fd.name ∉ m.methodNames := by
        intro hmem
        have hx : m.methodNames.contains fd.name = true := List.elem_iff.mpr hmem
        rw [hc] at hx
        exact Bool.false_ne_true hx
      have h1' : ({ m with
          methodNames := m.methodNames ++ [fd.name],
          methods := m.methods ++ [renderMethod m fd] } : Maker).methods.map methodNameOf
          = ({ m with
          methodNames := m.methodNames ++ [fd.name],
          methods := m.methods ++ [renderMethod m fd] } : Maker).methodNames := by
        simp [methodNameOf_rendered m fd hpfh, h1]
      have h2' : ({ m with
          methodNames := m.methodNames ++ [fd.name],
          methods := m.methods ++ [renderMethod m fd] } : Maker).methodNames.Nodup := by
        simp [List.nodup_append, h2, hnotmem]
      exact ih _ hpft h1' h2'

theorem getReceiverTypeName_funcDecl (fd : FuncDecl) :
    getReceiverTypeName (.funcDecl fd) =
      if numFields fd.recv ≠ 1 then ("", none)
      else
        match fd.recv with
        | some (f :: _) =>
          (match (match f.type with | .star x => x | t => t) with
           | .ident n => (n, some fd)
           | _ => ("", none))
        | _ => ("", none) := rfl

theorem getReceiverTypeName_some {d : Decl} {a : String} {fd : FuncDecl}
    (h : getReceiverTypeName d = (a, some fd)) : d = .funcDecl fd := by
  cases d with
  | other =>
    injection h with h1 h2
    exact Option.noConfusion h2
  | funcDecl fd1 =>
    rw [getReceiverTypeName_funcDecl] at h
    split at h
    · injection h with h1 h2
      exact Option.noConfusion h2
    · split at h
      · split at h
        · injection h with h1 h2
          rw [Option.some.inj h2]
        · injection h with h1 h2
          exact Option.noConfusion h2
      · injection h with h1 h2
        exact Option.noConfusion h2

theorem declMatches_some {structName : String} {d : Decl} {fd : FuncDecl}
    (hdm : declMatches structName d = some fd) : d = .funcDecl fd := by
  unfold declMatches at hdm
  rcases hg : getReceiverTypeName d with ⟨a, fdOpt⟩
  rw [hg] at hdm
  cases fdOpt with
  | none => exact Option.noConfusion hdm
  | some fd1 =>
    have hdm2 : (if a = structName then some fd1 else none) = some fd := hdm
    by_cases ha : a = structName
    · rw [if_pos ha] at hdm2
      have hfd : fd1 = fd := Option.some.inj hdm2
      subst hfd
      exact getReceiverTypeName_some hg
    · rw [if_neg ha] at hdm2
      exact Option.noConfusion hdm2

theorem newDecks_mem {structName : String} {names : List String} {ds : List Decl}
    {fd : FuncDecl} (hm : fd ∈ newDecks structName names ds) :
    Decl.funcDecl fd ∈ ds := by
  unfold newDecks at hm
  rcases List.mem_filterMap.mp hm with ⟨d, hd, hsome⟩
  have hdm : declMatches structName d = some fd := by
    cases hdm0 : declMatches structName d with
    | none => rw [hdm0] at hsome; exact Option.noConfusion hsome
    | some fd0 =>
      rw [hdm0] at hsome
      have hsome2 : (if (isExported fd0.name && !(names.contains fd0.name)) = true
          then some fd0 else none) = some fd := hsome
      by_cases hcond : (isExported fd0.name && !(names.contains fd0.name)) = true
      · rw [if_pos hcond] at hsome2
        exact hsome2
      · rw [if_neg hcond] at hsome2
        exact Option.noConfusion hsome2
  exact (declMatches_some hdm) ▸ hd

/-- A successful `ParseSource` call preserves the name correspondence,
uniqueness, and paren-freeness of all pending declarations. -/
theorem ParseSource_inv (cwd : String) (m : Maker) (f : GoFile) (s : Maker)
    (hpf : ∀ d ∈ f.decls, declParenFree d)
    (h1 : m.methods.map methodNameOf = m.methodNames)
    (h2 : m.methodNames.Nodup)
    (h3 : ∀ fd ∈ m.funcDecks, parenFree fd.name)
    (h : ParseSource cwd m f = .ok s) :
    s.methods.map methodNameOf = s.methodNames ∧ s.methodNames.Nodup ∧
    ∀ fd ∈ s.funcDecks, parenFree fd.name := by
  have hnewpf : ∀ fd ∈ newDecks m.StructName m.methodNames f.decls, parenFree fd.name := by
    intro fd hm
    have hdecl := newDecks_mem hm
    have := hpf _ hdecl
    exact this
  rw [ParseSource_eq] at h
  by_cases hq : fileQualifies m.StructName f.decls = true
  · rw [if_pos hq] at h
    set m1 : Maker :=
      { m with funcDecks := m.funcDecks ++ newDecks m.StructName m.methodNames f.decls }
      with hm1
    unfold harvestPhase at h
    cases hfold : f.imports.foldlM (processImport (targetPathOf cwd m1.Output)) m1 with
    | error e =>
      rw [hfold] at h
      exact Except.noConfusion h
    | ok m2 =>
      rw [hfold] at h
      injection h with h4
      have hframe := importFold_frame (targetPathOf cwd m1.Output) f.imports m1 m2 hfold
      have h1' : m2.methods.map methodNameOf = m2.methodNames := by
        rw [hframe.1, hframe.2.1]
        exact h1
      have h2' : m2.methodNames.Nodup := by
        rw [hframe.2.1]
        exact h2
      have hpf2 : ∀ fd ∈ m2.funcDecks, parenFree fd.name := by
        intro fd hm
        rw [hframe.2.2.1] at hm
        rcases List.mem_append.mp hm with hold | hnew
        · exact h3 fd hold
        · exact hnewpf fd hnew
      have hres := addMethodFold_inv m2.funcDecks m2 hpf2 h1' h2'
      rw [h4] at hres
      exact ⟨hres.1, hres.2.1, by
        intro fd hm
        rw [hres.2.2] at hm
        exact hpf2 fd hm⟩
  · rw [if_neg hq] at h
    injection h with h4
    subst h4
    refine ⟨h1, h2, ?_⟩
    intro fd hm
    rcases List.mem_append.mp hm with hold | hnew
    · exact h3 fd hold
    · exact hnewpf fd hnew

/-- The invariant lifted over a whole run. -/
theorem runFiles_inv (files : List GoFile) :
    ∀ (cwd : String) (m : Maker) (s : Maker),
      (∀ f ∈ files, ∀ d ∈ f.decls, declParenFree d) →
      m.methods.map methodNameOf = m.methodNames → m.methodNames.Nodup →
      (∀ fd ∈ m.funcDecks, parenFree fd.name) →
      runFiles cwd m files = .ok s →
      s.methods.map methodNameOf = s.methodNames ∧ s.methodNames.Nodup := by
  induction files with
  | nil =>
    intro cwd m s _ h1 h2 _ h
    injection h with h4
    subst h4
    exact ⟨h1, h2⟩
  | cons f files ih =>
    intro cwd m s hpf h1 h2 h3 h
    unfold runFiles at h
    rw [List.foldlM_cons] at h
    cases hstep : ParseSource cwd m f with
    | error e => rw [hstep] at h; exact Except.noConfusion h
    | ok m1 =>
      rw [hstep] at h
      have hinv := ParseSource_inv cwd m f m1 (hpf f (List.mem_cons_self f files)) h1 h2 h3 hstep
      exact ih cwd m1 s (fun f' hm => hpf f' (List.mem_cons_of_mem f hm))
        hinv.1 hinv.2.1 hinv.2.2 h

/-- Claim C5 — later duplicates are dropped silently and exactly (adding an
already-collected name leaves the state untouched, so the first-created
record survives), and over any run from a fresh engine the method names
recovered from the rendered records coincide with the collected name set
and are pairwise distinct: a name contributes at most one `Method` record
no matter how many files, or repetitions of a file, declare it. -/
theorem c5_first_wins_dedup :
    (∀ (m : Maker) (fd : FuncDecl), fd.name ∈ m.methodNames → addMethod m fd = m) ∧
    (∀ (cwd sn : String) (cd : Bool) (out pkg : String) (files : List GoFile) (s : Maker),
      (∀ f ∈ files, ∀ d ∈ f.decls, declParenFree d) →
      runFiles cwd (Maker.init sn cd out pkg) files = .ok s →
      s.methods.map methodNameOf = s.methodNames ∧ s.methodNames.Nodup) := by
  constructor
  · intro m fd hmem
    exact addMethod_mem m fd (List.elem_iff.mpr hmem)
  · intro cwd sn cd out pkg files s hpf hrun
    exact runFiles_inv files cwd (Maker.init sn cd out pkg) s hpf rfl List.nodup_nil
      (by intro fd hm; exact absurd hm (List.not_mem_nil fd)) hrun

/-- Witness for C5: adding an already-collected name is the identity, and
running `fileA` twice yields one `Foo` record with distinct names. -/
theorem c5_witness :
    addMethod { Maker.init "T" true "" "p" with methodNames := ["Foo"] } fooDecl2
      = { Maker.init "T" true "" "p" with methodNames := ["Foo"] } ∧
    runFiles "/w" (Maker.init "T" true "" "p") [fileA, fileA] = .ok c5state ∧
    c5state.methods.map methodNameOf = c5state.methodNames ∧
    c5state.methodNames.Nodup := by
  have hrun : runFiles "/w" (Maker.init "T" true "" "p") [fileA, fileA] = .ok c5state := by rfl
  have h2 := c5_first_wins_dedup.2 "/w" "T" true "" "p" [fileA, fileA] c5state
    (by decide) hrun
  exact ⟨c5_first_wins_dedup.1 _ fooDecl2 (by decide), hrun, h2.1, h2.2⟩

/-! ## C6: the receiver/export collection filter -/

theorem newDecks_empty_names (sn : String) (ds : List Decl) :
    newDecks sn [] ds = ds.filterMap (collectedOf sn) := by
  unfold newDecks
  congr 1
  funext d
  unfold collectedOf
  cases declMatches sn d with
  | none => rfl
  | some fd => simp

theorem collectedOf_of_not_qualifies {sn : String} {d : Decl}
    (h : qualifiesB sn d = false) : collectedOf sn d = none := by
  unfold qualifiesB at h
  unfold collectedOf
  cases hdm : declMatches sn d with
  | none => rfl
  | some fd =>
    rw [hdm] at h
    have h2 : isExported fd.name = false := h
    simp [h2]

theorem filterMap_collectedOf_nil {sn : String} {ds : List Decl}
    (h : fileQualifies sn ds = false) :
    ds.filterMap (collectedOf sn) = [] := by
  rw [List.filterMap_eq_nil]
  intro d hd
  apply collectedOf_of_not_qualifies
  unfold fileQualifies at h
  rw [List.any_eq_false] at h
  cases hb : qualifiesB sn d
  · rfl
  · exact absurd hb (h d hd)

/-- Claim C6 — a declaration is matched exactly when it is a function
declaration with a single receiver binding whose type, after unwrapping at
most one pointer, is a bare identifier equal to the target name: plain
functions and wrong receiver counts never match, a value or single-pointer
identifier receiver matches, a double pointer or qualified receiver type
never matches; consequently, from a fresh engine a file contributes
exactly the records of its receiver-matching exported declarations (none
of the unexported ones), in declaration order. -/
theorem c6_exported_filter :
    (∀ fd : FuncDecl, fd.recv = none → getReceiverTypeName (.funcDecl fd) = ("", none)) ∧
    (∀ fd : FuncDecl, numFields fd.recv ≠ 1 → getReceiverTypeName (.funcDecl fd) = ("", none)) ∧
    (∀ (fd : FuncDecl) (f : Field) (rest : List Field) (n : String),
      fd.recv = some (f :: rest) → numFields fd.recv = 1 →
      (f.type = .ident n ∨ f.type = .star (.ident n)) →
      getReceiverTypeName (.funcDecl fd) = (n, some fd)) ∧
    (∀ (fd : FuncDecl) (f : Field) (rest : List Field) (t : GoType),
      fd.recv = some (f :: rest) → f.type = .star (.star t) →
      getReceiverTypeName (.funcDecl fd) = ("", none)) ∧
    (∀ (fd : FuncDecl) (f : Field) (rest : List Field) (p n : String),
      fd.recv = some (f :: rest) → f.type = .sel p n →
      getReceiverTypeName (.funcDecl fd) = ("", none)) ∧
    (∀ (cwd : String) (m : Maker) (f : GoFile) (s : Maker),
      m.methods = [] → m.methodNames = [] → m.funcDecks = [] →
      (∀ d ∈ f.decls, declParenFree d) →
      ((f.decls.filterMap (collectedOf m.StructName)).map FuncDecl.name).Nodup →
      ParseSource cwd m f = .ok s →
      s.methods.map methodNameOf
        = (f.decls.filterMap (collectedOf m.StructName)).map FuncDecl.name) := by
  refine ⟨?_, ?_, ?_, ?_, ?_, ?_⟩
  · intro fd h
    rw [getReceiverTypeName_funcDecl, h]
    simp [numFields]
  · intro fd h
    rw [getReceiverTypeName_funcDecl]
    rw [if_pos h]
  · intro fd f rest n hrecv hnum htype
    rw [getReceiverTypeName_funcDecl, if_neg (by rw [hnum]; simp)]
    rcases htype with ht | ht <;> simp [hrecv, ht]
  · intro fd f rest t hrecv htype
    rw [getReceiverTypeName_funcDecl]
    by_cases hnum : numFields fd.recv ≠ 1
    · rw [if_pos hnum]
    · rw [if_neg hnum]
      simp [hrecv, htype]
  · intro fd f rest p n hrecv htype
    rw [getReceiverTypeName_funcDecl]
    by_cases hnum : numFields fd.recv ≠ 1
    · rw [if_pos hnum]
    · rw [if_neg hnum]
      simp [hrecv, htype]
  · intro cwd m f s hme hmn hfd hpf hnd hps
    rw [ParseSource_eq] at hps
    cases hq : fileQualifies m.StructName f.decls with
    | false =>
      rw [if_neg (by rw [hq]; simp)] at hps
      injection hps with h4
      subst h4
      rw [filterMap_collectedOf_nil hq]
      simp [hme]
    | true =>
      rw [if_pos hq] at hps
      set m1 : Maker :=
        { m with funcDecks := m.funcDecks ++ newDecks m.StructName m.methodNames f.decls }
        with hm1
      unfold harvestPhase at hps
      cases hfold : f.imports.foldlM (processImport (targetPathOf cwd m1.Output)) m1 with
      | error e =>
        rw [hfold] at hps
        exact Except.noConfusion hps
      | ok m2 =>
        rw [hfold] at hps
        injection hps with h4
        have hframe := importFold_frame (targetPathOf cwd m1.Output) f.imports m1 m2 hfold
        have hdecks : m2.funcDecks = f.decls.filterMap (collectedOf m.StructName) := by
          rw [hframe.2.2.1, hm1]
          simp only [hfd, hmn, List.nil_append]
          exact newDecks_empty_names m.StructName f.decls
        have hm2me : m2.methods = [] := by rw [hframe.1]; exact hme
        have hm2mn : m2.methodNames = [] := by rw [hframe.2.1]; exact hmn
        have hpf2 : ∀ fd ∈ m2.funcDecks, parenFree fd.name := by
          intro fd hm
          rw [hframe.2.2.1, hm1] at hm
          simp only [hfd, List.nil_append] at hm
          have hdecl := newDecks_mem hm
          have := hpf _ hdecl
          exact this
        have hnd2 : (m2.funcDecks.map FuncDecl.name).Nodup := by
          rw [hdecks]
          exact hnd
        have hfresh : ∀ fd ∈ m2.funcDecks, fd.name ∉ m2.methodNames := by
          intro fd _
          rw [hm2mn]
          exact List.not_mem_nil fd.name
        have hres := addMethodFold_names m2.funcDecks m2 hpf2 hnd2 hfresh
        rw [h4] at hres
        rw [hres.1, hm2me, hdecks]
        simp

/-- Witness for C6 at concrete declarations and a concrete mixed file:
the pointer receiver of `fooDecl` matches, a plain function does not, and
processing `fileMixed` collects exactly the exported `Foo`, not the
unexported `bar`. -/
theorem c6_witness :
    getReceiverTypeName (.funcDecl fooDecl) = ("T", some fooDecl) ∧
    getReceiverTypeName (.funcDecl plainFunc) = ("", none) ∧
    ParseSource "/w" (Maker.init "T" true "" "p") fileMixed = .ok c6state ∧
    c6state.methods.map methodNameOf
      = (fileMixed.decls.filterMap (collectedOf "T")).map FuncDecl.name ∧
    (fileMixed.decls.filterMap (collectedOf "T")).map FuncDecl.name = ["Foo"] := by
  have hps : ParseSource "/w" (Maker.init "T" true "" "p") fileMixed = .ok c6state := by rfl
  refine ⟨?_, ?_, hps, ?_, by decide⟩
  · exact c6_exported_filter.2.2.1 fooDecl { names := ["t"], type := .star (.ident "T") } []
      "T" rfl (by decide) (Or.inr rfl)
  · exact c6_exported_filter.1 plainFunc rfl
  · exact c6_exported_filter.2.2.2.2.2 "/w" (Maker.init "T" true "" "p") fileMixed c6state
      rfl rfl rfl (by decide) (by decide) hps

/-! ## C9: determinism and the working directory -/

/-- Claim C9 counterexample — the engine output depends on ambient process
state: byte-identical inputs and configuration, run from working
directories `/go/src/x/y` and `/w`, render different texts (the first
elides the import `q "x/y"` as a self-import, the second keeps it). -/
theorem c9_counterexample :
    ¬ ((runFiles "/go/src/x/y" (Maker.init "T" true "" "p") [fileSelf]).map
        (fun s => makeInterface s "p" "I")
      = (runFiles "/w" (Maker.init "T" true "" "p") [fileSelf]).map
        (fun s => makeInterface s "p" "I")) := by
  intro h
  injection h with h3
  exact absurd h3 (by decide)

/-- Claim C9 (amended) — the engine is a deterministic function of its
inputs, configuration AND the ambient working directory (read through
`os.Getwd` and passed explicitly here): two runs agreeing on all three,
the working directory included, produce identical output. -/
theorem c9_determinism_given_cwd :
    ∀ (cwd₁ cwd₂ : String) (m : Maker) (fs : List GoFile) (p i : String),
      cwd₁ = cwd₂ →
      (runFiles cwd₁ m fs).map (fun s => makeInterface s p i)
        = (runFiles cwd₂ m fs).map (fun s => makeInterface s p i) := by
  intro cwd₁ cwd₂ m fs p i h
  rw [h]

/-- Witness for C9 (amended) at a concrete repeated run. -/
theorem c9_witness :
    (runFiles "/w" (Maker.init "T" true "" "p") [fileA]).map
        (fun s => makeInterface s "p" "I")
      = (runFiles "/w" (Maker.init "T" true "" "p") [fileA]).map
        (fun s => makeInterface s "p" "I") :=
  c9_determinism_given_cwd "/w" "/w" (Maker.init "T" true "" "p") [fileA] "p" "I" rfl

/-! ## C10: rendering is read-only -/

/-- Claim C10 — rendering mutates nothing: `MakeInterface` returns the
receiver unchanged, invoking it twice in succession from the state the
first call leaves behind returns the identical result, and the rendered
text depends on nothing in the accumulator beyond the import list and the
method list (in particular not on the indices or the source-package
alias). -/
theorem c10_render_readonly :
    (∀ (m : Maker) (p i : String), (MakeInterface m p i).2 = m) ∧
    (∀ (m : Maker) (p i : String),
      MakeInterface ((MakeInterface m p i).2) p i = MakeInterface m p i) ∧
    (∀ (m m' : Maker) (p i : String), m.imports = m'.imports → m.methods = m'.methods →
      makeInterface m p i = makeInterface m' p i) := by
  refine ⟨fun m p i => rfl, fun m p i => rfl, ?_⟩
  intro m m' p i h1 h2
  unfold makeInterface
  rw [h1, h2]

/-- Witness for C10: the state survives a concrete render untouched, and
two accumulators differing only in an index and the source-package alias
render identically. -/
theorem c10_witness :
    (MakeInterface c5state "p" "I").2 = c5state ∧
    makeInterface { Maker.init "T" true "" "p" with methodNames := ["A"] } "p" "I"
      = makeInterface { Maker.init "T" true "" "q" with methodNames := ["B"] } "p" "I" := by
  exact ⟨c10_render_readonly.1 c5state "p" "I",
    c10_render_readonly.2.2 _ _ "p" "I" rfl rfl⟩

end Ifacemaker
